import Mathlib

/-!
Shallow embedding of the post synchronization and reconciliation engine of the
m3ssag1n8 client (src/view/postView.ts, src/model/model.ts, src/main.ts), with
theorems settling the claims about partitioning, pin cascading, event
attribution, deduplication, ordering, subscription lifecycle, stream input
validation, and reaction toggling.

Conventions of the embedding:
* JavaScript `Map<string, PostItem>` becomes an association list with unique
  keys; `Map.set` replaces an existing key in place (preserving its position)
  or appends, `Map.delete` removes the key's entry.
* A JavaScript value that may be `undefined` becomes an `Option`.
* A field checked with `Array.isArray` is `none` when it is absent or not an
  array.
* DOM-only effects (scrolling, CSS classes, element replacement) carry no index
  state and are not modelled; the mutation of a `PostItem`'s displayed data is
  modelled by writing the updated item back into the map that holds it.
* `Array.prototype.sort` with a numeric comparator is a stable sort; it is
  modelled by `List.insertionSort`, which is stable and sorted, hence produces
  the same list.
-/

namespace M3

/-- Metadata of a document (src/view/postView.ts, type Metadata). -/
structure Metadata where
  createdBy : String
  createdAt : Int
  lastModifiedBy : String
  lastModifiedAt : Int
deriving DecidableEq, Repr

/-- The four named reaction arrays of a post document (`doc.reactions`).
A field is `none` when it is missing or fails the code's `Array.isArray`
check. -/
structure Reactions where
  smile : Option (List String)
  like : Option (List String)
  frown : Option (List String)
  celebrate : Option (List String)
deriving DecidableEq, Repr

/-- Body of a post document (src/model/model.ts, PostBodySchema): `msg`,
optional `parent`, optional `reactions`, and `extensions.pins` (the set of
usernames that pinned the post; `none` when `doc.extensions?.pins` is missing
or not an array). -/
structure PostBody where
  msg : String
  parent : Option String
  reactions : Option Reactions
  pins : Option (List String)
deriving DecidableEq, Repr

/-- A `{path, doc, meta}` document as consumed by the view
(src/view/postView.ts, type ViewPost). -/
structure ViewPost where
  path : String
  doc : PostBody
  meta : Metadata
deriving DecidableEq, Repr

/-! ### Subscription lifecycle (src/model/model.ts, Model.subscribe /
Model.unsubscribe)

The `Model` holds one `AbortController | null`.  `subscribe` allocates a fresh
controller and starts a stream tied to it; `unsubscribe` aborts the current
controller's stream, if any.  Streams are identified by the order in which
they were started; `activeStreams` is the set of streams whose controller has
never been aborted. -/

/-- Subscription state of the `Model`: the currently stored controller (by
stream id), a counter for fresh ids, and the ids of all not-yet-aborted
streams. -/
structure SubLifecycle where
  controller : Option Nat
  nextStream : Nat
  activeStreams : List Nat
deriving DecidableEq, Repr

/-- `Model.subscribe`: `this.controller = new AbortController()` and
`fetchEventSource(path, { …, signal: this.controller.signal })`.  The previous
controller is overwritten without being aborted, so its stream stays active. -/
def subscribe (m : SubLifecycle) : SubLifecycle :=
  { controller := some m.nextStream
    nextStream := m.nextStream + 1
    activeStreams := m.activeStreams ++ [m.nextStream] }

/-- `Model.unsubscribe`: `this.controller?.abort(); this.controller = null`.
Aborting a controller cancels exactly the stream that was started with it. -/
def unsubscribe (m : SubLifecycle) : SubLifecycle :=
  match m.controller with
  | some c =>
    { controller := none
      nextStream := m.nextStream
      activeStreams := m.activeStreams.filter (fun i => i ≠ c) }
  | none => m

/-- The `displayChannelEvent` listener (src/main.ts) always calls
`model.unsubscribe()` before `model.subscribe(path, token)`. -/
def displayChannelResubscribe (m : SubLifecycle) : SubLifecycle :=
  subscribe (unsubscribe m)

/-- The state of a `Model` reachable by the code: either no stream was ever
started (or all were aborted), or the stored controller governs the single
active stream. -/
def SubInv (m : SubLifecycle) : Prop :=
  m.activeStreams = [] ∨ ∃ c, m.controller = some c ∧ m.activeStreams = [c]

/-! ### Stream input validation (src/model/model.ts, Model.subscribe onmessage)

`onmessage` ignores every event whose type is not `"update"`, parses the data
as JSON, and dispatches an `updatePostEvent` only when `isPostUpdate` (the
compiled PostUpdateSchema) accepts the parsed value. -/

/-- A parsed JSON value, as produced by `JSON.parse` on a stream message. -/
inductive Json where
  | null : Json
  | bool (b : Bool) : Json
  | num (n : Int) : Json
  | str (s : String) : Json
  | arr (items : List Json) : Json
  | obj (members : List (String × Json)) : Json

/-- Member lookup in a JSON object (objects have unique keys). -/
def objGet (m : List (String × Json)) (k : String) : Option Json :=
  (m.find? (fun e => e.1 = k)).map (fun e => e.2)

/-- `type: "string"`. -/
def isJStr : Json → Bool
  | .str _ => true
  | _ => false

/-- `type: "integer"`. -/
def isJInt : Json → Bool
  | .num _ => true
  | _ => false

/-- The string contents of an array all of whose items are strings. -/
def asStringItems : List Json → Option (List String)
  | [] => some []
  | .str s :: rest => (asStringItems rest).map (fun l => s :: l)
  | _ => none

/-- No duplicates, for the schema's `uniqueItems` on reaction arrays. -/
def strNoDup : List String → Bool
  | [] => true
  | s :: rest => !(rest.contains s) && strNoDup rest

/-- `reactionArray` of ReactionsSchema: an array of strings with
`uniqueItems: true`. -/
def isReactionArray (j : Json) : Bool :=
  match j with
  | .arr xs =>
    match asStringItems xs with
    | some ss => strNoDup ss
    | none => false
  | _ => false

/-- An array of strings (the `pins` property, no uniqueness required). -/
def isStringArray (j : Json) : Bool :=
  match j with
  | .arr xs => (asStringItems xs).isSome
  | _ => false

/-- ReactionsSchema: an object whose four named properties, when present, are
reaction arrays; `additionalProperties: true`. -/
def validReactions (j : Json) : Bool :=
  match j with
  | .obj m =>
    (match objGet m ":smile:" with | some v => isReactionArray v | none => true) &&
    (match objGet m ":like:" with | some v => isReactionArray v | none => true) &&
    (match objGet m ":frown:" with | some v => isReactionArray v | none => true) &&
    (match objGet m ":celebrate:" with | some v => isReactionArray v | none => true)
  | _ => false

/-- The `extensions` property of PostBodySchema: an object whose `pins`
property, when present, is an array of strings. -/
def validExtensions (j : Json) : Bool :=
  match j with
  | .obj m =>
    match objGet m "pins" with
    | some v => isStringArray v
    | none => true
  | _ => false

/-- PostBodySchema: `required: ["msg"]`; `msg`, `parent` strings, `reactions`
per ReactionsSchema, `extensions` as above; `additionalProperties: true`. -/
def validPostBody (j : Json) : Bool :=
  match j with
  | .obj m =>
    (match objGet m "msg" with | some v => isJStr v | none => false) &&
    (match objGet m "parent" with | some v => isJStr v | none => true) &&
    (match objGet m "reactions" with | some v => validReactions v | none => true) &&
    (match objGet m "extensions" with | some v => validExtensions v | none => true)
  | _ => false

/-- MetadataSchema: the four required fields with their types and
`additionalProperties: false`. -/
def validMetadata (j : Json) : Bool :=
  match j with
  | .obj m =>
    m.all (fun e => e.1 = "createdBy" || e.1 = "createdAt" ||
                    e.1 = "lastModifiedBy" || e.1 = "lastModifiedAt") &&
    (match objGet m "createdBy" with | some v => isJStr v | none => false) &&
    (match objGet m "createdAt" with | some v => isJInt v | none => false) &&
    (match objGet m "lastModifiedBy" with | some v => isJStr v | none => false) &&
    (match objGet m "lastModifiedAt" with | some v => isJInt v | none => false)
  | _ => false

/-- PostUpdateSchema, as compiled to the `isPostUpdate` type guard:
`required: ["path", "doc", "meta"]`, `path` a string, `doc` a post body,
`meta` a metadata object, `additionalProperties: false`. -/
def isPostUpdate (j : Json) : Bool :=
  match j with
  | .obj m =>
    m.all (fun e => e.1 = "path" || e.1 = "doc" || e.1 = "meta") &&
    (match objGet m "path" with | some v => isJStr v | none => false) &&
    (match objGet m "doc" with | some v => validPostBody v | none => false) &&
    (match objGet m "meta" with | some v => validMetadata v | none => false)
  | _ => false

/-- One server-sent event as handed to `onmessage` (the data field already
parsed by `JSON.parse`). -/
structure StreamMessage where
  event : String
  id : String
  data : Json

/-- The `meta.lastModifiedBy` string of a valid post update, used to build the
dispatched event id (`msg.id + result.meta.lastModifiedBy`). -/
def metaLastModifiedBy (j : Json) : String :=
  match j with
  | .obj m =>
    match objGet m "meta" with
    | some (.obj mm) =>
      match objGet mm "lastModifiedBy" with
      | some (.str s) => s
      | _ => ""
    | _ => ""
  | _ => ""

/-- The `updatePostEvent` dispatched to the window by `onmessage`. -/
structure DispatchedUpdate where
  id : String
  post : Json

/-- `onmessage` of `Model.subscribe`: a non-`"update"` event is a keep-alive
and is ignored; an `"update"` event is dispatched only when the parsed data
satisfies `isPostUpdate`.  Returning `none` means nothing is dispatched, so no
state changes. -/
def onmessage (msg : StreamMessage) : Option DispatchedUpdate :=
  if msg.event ≠ "update" then none
  else if isPostUpdate msg.data then
    some { id := msg.id ++ metaLastModifiedBy msg.data, post := msg.data }
  else none

/-! ### The post index (src/view/postView.ts, PostView)

A `PostItem` web component carries the post's data, its reply items
(`childrenItems`, the direct replies only) and the displayed reaction counts
(the `innerText` of the four counter elements; the empty text renders count
0, any other count its decimal rendering, so the text is modelled by the
count it renders). -/

/-- A `PostItem` (src/component/postComponent.ts): message, creator
(`meta.createdBy`), post time (`meta.createdAt`), path, the four displayed
reaction counts, the reactor arrays, the direct reply items and the parent
path. -/
inductive PItem where
  | mk (msg : String) (createdBy : String) (postTime : Int) (path : String)
       (counts : List Int) (reactors : Option Reactions)
       (children : List PItem) (parent : Option String)

/-- `PostItem.getPath`. -/
def PItem.path : PItem → String
  | .mk _ _ _ p _ _ _ _ => p

/-- `PostItem.getPostTime`. -/
def PItem.postTime : PItem → Int
  | .mk _ _ t _ _ _ _ _ => t

/-- `PostItem.getChildren` (the direct replies). -/
def PItem.children : PItem → List PItem
  | .mk _ _ _ _ _ _ cs _ => cs

/-- `PostItem.getReactors`. -/
def PItem.reactors : PItem → Option Reactions
  | .mk _ _ _ _ _ r _ _ => r

/-- The four displayed reaction counts. -/
def PItem.counts : PItem → List Int
  | .mk _ _ _ _ c _ _ _ => c

/-- Write one displayed count (`reactionElemText.innerText = …`). -/
def PItem.setCount : PItem → Nat → Int → PItem
  | .mk m cb t p cnt r cs par, i, v => .mk m cb t p (cnt.set i v) r cs par

/-- Replace the reply list (`this.childrenItems = postItemChildren`). -/
def PItem.withChildren : PItem → List PItem → PItem
  | .mk m cb t p cnt r _ par, cs => .mk m cb t p cnt r cs par

/-- A `Map<string, PostItem>` as an association list with unique keys. -/
abbrev PostMap := List (String × PItem)

/-- `Map.get`: the value stored under the key. -/
def mapGet (m : PostMap) (k : String) : Option PItem :=
  match m with
  | [] => none
  | e :: rest => if e.1 = k then some e.2 else mapGet rest k

/-- `Map.set`: replaces the value of an existing key in place, otherwise
appends the new entry. -/
def mapSet (m : PostMap) (k : String) (v : PItem) : PostMap :=
  match m with
  | [] => [(k, v)]
  | e :: rest => if e.1 = k then (k, v) :: rest else e :: mapSet rest k v

/-- `Map.delete`: removes the key's entry (keys are unique in a JS `Map`). -/
def mapDelete (m : PostMap) (k : String) : PostMap :=
  match m with
  | [] => []
  | e :: rest => if e.1 = k then mapDelete rest k else e :: mapDelete rest k

/-- The view state mutated by `PostView`: the two partition mappings and the
last processed event id. -/
structure ViewState where
  allPostMapping : PostMap
  pinnedPostMapping : PostMap
  lastEventID : String

/-! ### Reaction counting (PostView.getReactions, PostView.findReactor) -/

/-- The length of a reaction array, 0 when it is missing or not an array. -/
def optLen (o : Option (List String)) : Int :=
  match o with
  | some l => (l.length : Int)
  | none => 0

/-- `PostView.getReactions`: the four counts (smile, like, frown, celebrate);
all zero when the reactions object is undefined. -/
def getReactions (r : Option Reactions) : List Int :=
  match r with
  | some rr => [optLen rr.smile, optLen rr.like, optLen rr.frown, optLen rr.celebrate]
  | none => [0, 0, 0, 0]

/-- `Array.prototype.at`: non-negative indices from the front, negative
indices from the back, `undefined` out of range. -/
def jsAt (l : List Int) (i : Int) : Option Int :=
  if 0 ≤ i then l.get? i.toNat
  else if 0 ≤ i + l.length then l.get? (i + l.length).toNat else none

/-- The `switch (index)` of `findReactor`: cases 0–3 pick the last entry of
the corresponding reaction array (`undefined` when the array is empty), a
missing reactions object or a non-array field or any other index leaves the
`username` variable unchanged. -/
def pickEmoji (r : Option Reactions) (v : Int) (username : Option String) :
    Option String :=
  match r with
  | none => username
  | some rr =>
    if v = 0 then (match rr.smile with | some l => l.getLast? | none => username)
    else if v = 1 then (match rr.like with | some l => l.getLast? | none => username)
    else if v = 2 then (match rr.frown with | some l => l.getLast? | none => username)
    else if v = 3 then (match rr.celebrate with | some l => l.getLast? | none => username)
    else username

/-- One iteration of `findReactor`'s `forEach`.  The callback parameter is
named `index` in the source but receives the array ELEMENT, so each count
value is used as an index.  A `>`/`<` comparison involving `undefined` is
false in JavaScript, so any out-of-range access falls into the final `else`,
which sets `username = "same"`. -/
def findReactorStep (newCounts oldCounts : List Int)
    (newReactors oldReactors : Option Reactions)
    (username : Option String) (v : Int) : Option String :=
  match jsAt newCounts v, jsAt oldCounts v with
  | some x, some y =>
    if x > y then pickEmoji newReactors v username
    else if x < y then pickEmoji oldReactors v username
    else some "same"
  | _, _ => some "same"

/-- `PostView.findReactor`: folds the step over the elements of the new count
array, starting from the empty string.  The JS `username` variable can end up
holding `undefined`, hence the `Option String` result. -/
def findReactor (newCounts oldCounts : List Int)
    (newReactors oldReactors : Option Reactions) : Option String :=
  newCounts.foldl
    (fun u v => findReactorStep newCounts oldCounts newReactors oldReactors u v)
    (some "")

/-! ### Reconciliation of one incoming document (PostView.updatePosts and the
updatePostEvent listener of src/main.ts) -/

/-- `Number.isNaN(parseInt(id))`: `parseInt` is NaN exactly when the string
(ids carry no leading whitespace) does not start with a digit, optionally
after a sign. -/
def jsParseIntNaN (s : String) : Bool :=
  match s.data with
  | [] => true
  | c :: rest =>
    if c = '-' ∨ c = '+' then
      match rest with
      | [] => true
      | d :: _ => !d.isDigit
    else !c.isDigit

/-- `Number.isNaN(parseInt(id.charAt(id.length - 1)))`: NaN exactly when the
last character is not a digit (`charAt` of the empty string is `""`). -/
def lastCharNonNumeric (s : String) : Bool :=
  match s.data.getLast? with
  | none => true
  | some c => !c.isDigit

/-- The `new PostItem(...)` built by `updatePosts` from an incoming document
(msg, createdBy, createdAt, path, counts from `getReactions`, the raw
reactions, the given reply items, the parent). -/
def postFromUpdate (post : ViewPost) (children : List PItem) : PItem :=
  .mk post.doc.msg post.meta.createdBy post.meta.createdAt post.path
    (getReactions post.doc.reactions) post.doc.reactions children post.doc.parent

/-- Sibling order used by `addReply` and the root insertions: ascending
`getPostTime`. -/
def byPostTime (a b : PItem) : Prop := a.postTime ≤ b.postTime

instance : DecidableRel byPostTime := fun a b =>
  inferInstanceAs (Decidable (a.postTime ≤ b.postTime))

/-- `PostItem.addReply`: collects the current replies, pushes the new one,
stably sorts them by post time and stores the sorted array back into
`childrenItems`. -/
def addReply (item reply : PItem) : PItem :=
  item.withChildren (List.insertionSort byPostTime (item.children ++ [reply]))

/-- `Array.prototype.findIndex`: index of the first element satisfying the
predicate, `-1` when none does. -/
def jsFindIndexAux (p : PItem → Bool) : List PItem → Int → Int
  | [], _ => -1
  | x :: rest, i => if p x then i else jsFindIndexAux p rest (i + 1)

/-- `Array.prototype.findIndex`, starting at index 0. -/
def jsFindIndex (l : List PItem) (p : PItem → Bool) : Int :=
  jsFindIndexAux p l 0

/-- `Node.insertBefore(newPost, ref)` on the post area's root sequence: a DOM
node occurs once, so the reference node is identified by its path. -/
def insertBeforePathAux (area : List PItem) (newPost : PItem) (p : String) :
    List PItem :=
  match area with
  | [] => [newPost]
  | x :: rest =>
    if x.path = p then newPost :: x :: rest
    else x :: insertBeforePathAux rest newPost p

/-- `Node.insertBefore(newPost, follows)`: `null` appends at the end. -/
def insertBeforePath (area : List PItem) (newPost : PItem)
    (follows : Option PItem) : List PItem :=
  match follows with
  | none => area ++ [newPost]
  | some f => insertBeforePathAux area newPost f.path

/-- The display-area effect of the stream branch's root insertion
(`this.postArea.append(newPost)` in `updatePosts`): the new root post is
appended at the end of the root sequence regardless of its creation time. -/
def streamRootAppend (area : List PItem) (newPost : PItem) : List PItem :=
  area ++ [newPost]

/-- The display-area effect of the local branch's root insertion in
`updatePosts`: the area's root items are collected into `temp3`, the new
post pushed, the array stably sorted by post time, and an insertion point
computed with `findIndex` — whose callback
`val.getPostTime() === newPost.getPostTime();` is a braced block without a
`return`, so it yields `undefined` (falsy) for every element and `findIndex`
is always `-1`; `follows` is then `null` and `insertBefore(newPost, null)`
appends. -/
def localRootInsert (area : List PItem) (newPost : PItem) : List PItem :=
  let temp3 := List.insertionSort byPostTime (area ++ [newPost])
  let index := jsFindIndex temp3 (fun _ => false)
  let follows := if index = -1 then none else temp3.get? (index + 1).toNat
  insertBeforePath area newPost follows

/-- `PostView.updatePosts`.  Branch one (`parseInt(id)` is a number) handles
documents arriving from the stream, branch two (last character of the id not
a digit) locally created ones; any other id shape falls through unchanged.
For a known path the update is discarded when `findReactor` attributes it to
the current user or reports no count change (`"same"`); otherwise the
rebuilt item replaces the stored one (the parent's `replaceReply` and the
root `replaceChild`/`insertBefore` calls move DOM nodes only).  For an
unknown path the new item is put into `allPostMapping` first; a nonempty
parent is then looked up and, when found, the reply is attached via
`addReply` (the reply-box branch differs only by scrolling).  Branch two
records the event id unless it discarded. -/
def updatePosts (st : ViewState) (post : ViewPost) (id : String)
    (currentUser : String) : ViewState :=
  if !jsParseIntNaN id then
    -- new item from outside
    match mapGet st.allPostMapping post.path with
    | some replace =>
      let reactions := getReactions post.doc.reactions
      let reactor := findReactor reactions (getReactions replace.reactors)
        post.doc.reactions replace.reactors
      if some currentUser = reactor ∨ reactor = some "same" then st
      else
        let newPost := postFromUpdate post replace.children
        { st with allPostMapping := mapSet st.allPostMapping post.path newPost }
    | none =>
      let newPost := postFromUpdate post []
      let all1 := mapSet st.allPostMapping post.path newPost
      match post.doc.parent with
      | some par =>
        if par ≠ "" then
          match mapGet all1 par with
          | some parentPost =>
            { st with allPostMapping := mapSet all1 par (addReply parentPost newPost) }
          | none => { st with allPostMapping := all1 }
        else { st with allPostMapping := all1 }
      | none => { st with allPostMapping := all1 }
  else if lastCharNonNumeric id then
    -- from inside
    match mapGet st.allPostMapping post.path with
    | some replace =>
      let reactions := getReactions post.doc.reactions
      let reactor := findReactor reactions (getReactions replace.reactors)
        post.doc.reactions replace.reactors
      if some currentUser = reactor ∨ reactor = some "same" then st
      else
        let newPost := postFromUpdate post replace.children
        { st with allPostMapping := mapSet st.allPostMapping post.path newPost,
                  lastEventID := id }
    | none =>
      let newPost := postFromUpdate post []
      let all1 := mapSet st.allPostMapping post.path newPost
      match post.doc.parent with
      | some par =>
        if par ≠ "" then
          match mapGet all1 par with
          | some parentPost =>
            { st with allPostMapping := mapSet all1 par (addReply parentPost newPost),
                      lastEventID := id }
          | none => { st with allPostMapping := all1, lastEventID := id }
        else { st with allPostMapping := all1, lastEventID := id }
      | none => { st with allPostMapping := all1, lastEventID := id }
  else st

/-- `String.prototype.substring(0, e)` with its clamping of a negative end. -/
def jsSubstring0 (s : String) (e : Int) : String :=
  s.take (max 0 e).toNat

/-- `String.prototype.endsWith`. -/
def jsEndsWith (s suffix : String) : Bool :=
  List.isSuffixOf suffix.data s.data

/-- The `updatePostEvent` listener (src/main.ts): an event id ending in the
logged-in username is the echo of this client's own mutation and is ignored;
otherwise the `lastModifiedBy` suffix is stripped off the id and the document
is fed to `updatePosts`. -/
def processUpdateEvent (st : ViewState) (id : String) (post : ViewPost)
    (currentUser : String) : ViewState :=
  if jsEndsWith id currentUser then st
  else
    let newID := jsSubstring0 id ((id.length : Int) - (post.meta.lastModifiedBy.length : Int))
    updatePosts st post newID currentUser

/-! ### Pin toggling (PostView.togglePin) -/

/-- The child loop of `togglePin` when pinning: each direct reply is deleted
from `allPostMapping` and put into `pinnedPostMapping`. -/
def pinChildFold (cs : List PItem) (ap : PostMap × PostMap) : PostMap × PostMap :=
  cs.foldl (fun acc child => (mapDelete acc.1 child.path, mapSet acc.2 child.path child)) ap

/-- The child loop of `togglePin` when unpinning: each direct reply is put
into `allPostMapping` and deleted from `pinnedPostMapping`. -/
def unpinChildFold (cs : List PItem) (ap : PostMap × PostMap) : PostMap × PostMap :=
  cs.foldl (fun acc child => (mapSet acc.1 child.path child, mapDelete acc.2 child.path)) ap

/-- `PostView.togglePin`: looks the post up in the mapping named by the
current pin state (throwing when absent), then moves the post and its
`getChildren()` items between the two mappings.  The `insertBefore` /
`getFirstUnpinned` calls position DOM nodes only. -/
def togglePin (st : ViewState) (postPath : String) (pinned : Bool) :
    Except String ViewState :=
  let postElem? := if pinned then mapGet st.pinnedPostMapping postPath
                   else mapGet st.allPostMapping postPath
  match postElem? with
  | none => Except.error "The post with the specified path is undefined"
  | some postElem =>
    if pinned then
      -- removing it from pinned
      let ap := unpinChildFold postElem.children
        (mapSet st.allPostMapping postElem.path postElem,
         mapDelete st.pinnedPostMapping postElem.path)
      Except.ok { st with allPostMapping := ap.1, pinnedPostMapping := ap.2 }
    else
      -- adding it to pinned
      let ap := pinChildFold postElem.children
        (mapDelete st.allPostMapping postElem.path,
         mapSet st.pinnedPostMapping postElem.path postElem)
      Except.ok { st with allPostMapping := ap.1, pinnedPostMapping := ap.2 }

/-! ### Local reaction updates (PostView.updateReactions,
Model.triggerReaction) -/

/-- The lookup order of `updateReactions`: `allPostMapping` first, then
`pinnedPostMapping`. -/
def lookupPost (st : ViewState) (postPath : String) : Option PItem :=
  match mapGet st.allPostMapping postPath with
  | some e => some e
  | none => mapGet st.pinnedPostMapping postPath

/-- Index of the counter element `${reaction}-count-${postPath}` addressed by
a reaction kind; any other kind has no element and makes the code throw. -/
def reactionIndex (reaction : String) : Option Nat :=
  if reaction = "smile" then some 0
  else if reaction = "like" then some 1
  else if reaction = "frown" then some 2
  else if reaction = "celebrate" then some 3
  else none

/-- The counter mutation of `updateReactions`: read the displayed count
(empty text renders 0), decrement when the user had already reacted,
increment otherwise, write it back. -/
def applyReaction (postElem : PItem) (reaction : String) (reacted : Bool) :
    Except String PItem :=
  match reactionIndex reaction with
  | none => Except.error "No reaction element exists for this post"
  | some idx =>
    let currCount := postElem.counts.getD idx 0
    Except.ok (postElem.setCount idx (if reacted then currCount - 1 else currCount + 1))

/-- `PostView.updateReactions`: resolves the path through `allPostMapping`
first and `pinnedPostMapping` second, throws when the path is in neither, and
updates the displayed count of the found item (the item object is mutated in
place in JS; here the updated item is written back into the map that held
it). -/
def updateReactions (st : ViewState) (postPath reaction : String)
    (reacted : Bool) : Except String ViewState :=
  match mapGet st.allPostMapping postPath with
  | some postElem =>
    (applyReaction postElem reaction reacted).map
      (fun e => { st with allPostMapping := mapSet st.allPostMapping postPath e })
  | none =>
    match mapGet st.pinnedPostMapping postPath with
    | some postElem =>
      (applyReaction postElem reaction reacted).map
        (fun e => { st with pinnedPostMapping := mapSet st.pinnedPostMapping postPath e })
    | none => Except.error "The post with the specified path is undefined"

/-- React then unreact: the optimistic updates run by the `reactEvent`
listener for a toggle of the same emoji on the same post by the same user. -/
def reactThenUnreact (st : ViewState) (postPath reaction : String) :
    Except String ViewState :=
  (updateReactions st postPath reaction false).bind
    (fun st1 => updateReactions st1 postPath reaction true)

/-- A patch path built by `Model.triggerReaction`: either the string
`"/reactions"` or `"/reactions/" ++ key`. -/
inductive PatchPath where
  | reactionsRoot : PatchPath
  | reactionsKey (k : String) : PatchPath
deriving DecidableEq, Repr

/-- One entry of the PATCH body sent by `Model.triggerReaction`. A `none`
value stands for the `{}` / `[]` creation payloads. -/
structure PatchBody where
  op : String
  path : PatchPath
  value : Option String
deriving DecidableEq, Repr

/-- The document key of an emoji kind (the `:<emoji>:` member addressed by
the path `/reactions/:<emoji>:`). -/
def emojiKey (emoji : String) : String := ":" ++ emoji ++ ":"

/-- The ordered patch list of `Model.triggerReaction`: create the reactions
object and its four arrays if missing, then `ArrayRemove` (when the user had
reacted) or `ArrayAdd` (otherwise) the username on the chosen emoji's
array. -/
def triggerReactionPatches (emoji username : String) (reacted : Bool) :
    List PatchBody :=
  [⟨"ObjectAdd", .reactionsRoot, none⟩,
   ⟨"ObjectAdd", .reactionsKey ":smile:", none⟩,
   ⟨"ObjectAdd", .reactionsKey ":like:", none⟩,
   ⟨"ObjectAdd", .reactionsKey ":frown:", none⟩,
   ⟨"ObjectAdd", .reactionsKey ":celebrate:", none⟩,
   if reacted then ⟨"ArrayRemove", .reactionsKey (emojiKey emoji), some username⟩
   else ⟨"ArrayAdd", .reactionsKey (emojiKey emoji), some username⟩]

/-- The reactions member of a stored post document: `none` when the document
has no reactions object, otherwise the object's members (emoji key to string
array). -/
abbrev RDoc := Option (List (String × List String))

/-- Modelled from the spec: OwlDB's `ArrayAdd` patch operation on a
reaction/pin membership set (§6, §4.2) adds the value to the addressed array
unless it is already a member (the arrays have set semantics,
`uniqueItems`). -/
def arrayAdd (u : String) (s : List String) : List String :=
  if u ∈ s then s else s ++ [u]

/-- Modelled from the spec: OwlDB's `ArrayRemove` patch operation removes the
value from the addressed array. -/
def arrayRemove (u : String) (s : List String) : List String :=
  s.filter (fun x => x ≠ u)

/-- Update the first member with the given key of a reactions object. -/
def setRKey (m : List (String × List String)) (k : String)
    (f : List String → List String) : List (String × List String) :=
  match m with
  | [] => []
  | e :: rest => if e.1 = k then (e.1, f e.2) :: rest else e :: setRKey rest k f

/-- Whether the reactions object has a member with the given key. -/
def hasRKey (m : List (String × List String)) (k : String) : Bool :=
  (m.find? (fun e => e.1 = k)).isSome

/-- `ObjectAdd` on a member key: create the member when missing, leave the
object alone otherwise. -/
def ensureRKey (m : List (String × List String)) (k : String) :
    List (String × List String) :=
  if hasRKey m k then m else m ++ [(k, [])]

/-- Modelled from the spec: applying one `Model.triggerReaction` patch to the
reactions member of the stored document (§6: PATCH with an ordered list of
operations against `/reactions/:<emoji>:`).  `ObjectAdd` creates the
addressed member when missing and leaves it alone otherwise; the array
operations rewrite the addressed array (the document always has the array by
the time they run, since the preceding `ObjectAdd` patches created it, so the
missing-member case never fires for the lists `triggerReaction` sends). -/
def applyPatch (d : RDoc) (p : PatchBody) : RDoc :=
  match p.path with
  | .reactionsRoot =>
    if p.op = "ObjectAdd" then (match d with | none => some [] | some m => some m)
    else d
  | .reactionsKey k =>
    match d with
    | some m =>
      if p.op = "ObjectAdd" then some (ensureRKey m k)
      else if p.op = "ArrayAdd" then
        some (match p.value with
              | some u => setRKey m k (arrayAdd u)
              | none => m)
      else if p.op = "ArrayRemove" then
        some (match p.value with
              | some u => setRKey m k (arrayRemove u)
              | none => m)
      else some m
    | none => d

/-- The member set of an emoji key in the stored reactions (empty when the
object or the key is missing). -/
def getRSet (k : String) (d : RDoc) : List String :=
  match d with
  | none => []
  | some m =>
    match m.find? (fun e => e.1 = k) with
    | some e => e.2
    | none => []

/-- The members of the reactions object after the initial root `ObjectAdd`. -/
def docMembers (d : RDoc) : List (String × List String) :=
  match d with
  | none => []
  | some m => m

/-- The round trip of the stored reaction sets: the patches of a react call
followed by those of the matching unreact call. -/
def docReactRoundTrip (d : RDoc) (emoji username : String) : RDoc :=
  ((triggerReactionPatches emoji username true).foldl applyPatch
    ((triggerReactionPatches emoji username false).foldl applyPatch d))

/-! ### Partition build (PostView.getPinnedPosts, PostView.displayAllPosts) -/

/-- Root order of the general partition: ascending `meta.createdAt`. -/
def byCreatedAt (a b : ViewPost) : Prop := a.meta.createdAt ≤ b.meta.createdAt

instance : DecidableRel byCreatedAt := fun a b =>
  inferInstanceAs (Decidable (a.meta.createdAt ≤ b.meta.createdAt))

instance : IsTotal ViewPost byCreatedAt := ⟨fun _ _ => le_total _ _⟩

instance : IsTrans ViewPost byCreatedAt := ⟨fun _ _ _ h h2 => le_trans h h2⟩

/-- Root order of the pinned partition: ascending `meta.lastModifiedAt`. -/
def byLastModifiedAt (a b : ViewPost) : Prop :=
  a.meta.lastModifiedAt ≤ b.meta.lastModifiedAt

instance : DecidableRel byLastModifiedAt := fun a b =>
  inferInstanceAs (Decidable (a.meta.lastModifiedAt ≤ b.meta.lastModifiedAt))

instance : IsTotal ViewPost byLastModifiedAt := ⟨fun _ _ => le_total _ _⟩

instance : IsTrans ViewPost byLastModifiedAt := ⟨fun _ _ _ h h2 => le_trans h h2⟩

/-- `if (pins.find((s) => s === currUser))`: the found element itself is the
condition, so finding the empty username (a falsy string) does not count. -/
def pinsFindUser (pins : List String) (u : String) : Bool :=
  match pins.find? (fun s => s = u) with
  | some s => s ≠ ""
  | none => false

/-- The branch condition of `getPinnedPosts` for one post: a present pins
array is consulted for the current user; only when the field is missing (or
not an array) does the code ask whether a post collected as pinned so far is
the post's parent. -/
def postPinCond (currUser : String) (pinnedAcc : List ViewPost) (p : ViewPost) :
    Bool :=
  match p.doc.pins with
  | some pins => pinsFindUser pins currUser
  | none => pinnedAcc.any (fun s => p.doc.parent = some s.path)

/-- The `forEach` of `getPinnedPosts`: pushes every post onto exactly one of
the two arrays. -/
def getPinnedPostsAux (currUser : String) :
    List ViewPost → List ViewPost → List ViewPost → List ViewPost × List ViewPost
  | [], pinned, general => (pinned, general)
  | p :: rest, pinned, general =>
    if postPinCond currUser pinned p then
      getPinnedPostsAux currUser rest (pinned ++ [p]) general
    else
      getPinnedPostsAux currUser rest pinned (general ++ [p])

/-- `PostView.getPinnedPosts`: sorts all posts by `createdAt` and partitions
them into (pinned, general). -/
def getPinnedPosts (currUser : String) (allPosts : List ViewPost) :
    List ViewPost × List ViewPost :=
  getPinnedPostsAux currUser (List.insertionSort byCreatedAt allPosts) [] []

/-- Whether the viewer's own `pins` array pins the post for them. -/
def ownPin (u : String) (p : ViewPost) : Bool :=
  match p.doc.pins with
  | some pins => pinsFindUser pins u
  | none => false

/-- The tree build treats a post as a reply exactly when its parent field is
a nonempty string (`parent !== undefined && parent !== ""`). -/
def isReplyParent : Option String → Bool
  | some s => s ≠ ""
  | none => false

/-- The root posts of a partition list, in list order: the tree build pushes
a post onto `roots` exactly when it is not a reply (replies are attached to
their parent's tree node, or skipped when the parent is not in the same
partition's map). -/
def rootsOf (l : List ViewPost) : List ViewPost :=
  l.filter (fun p => !isReplyParent p.doc.parent)

/-- The two partition lists produced by `displayAllPosts`: the pinned posts
re-sorted by `lastModifiedAt` and the general posts re-sorted by
`createdAt`; the root trees are then rendered in these list orders. -/
structure ChannelDisplay where
  pinnedList : List ViewPost
  generalList : List ViewPost

/-- `PostView.displayAllPosts` (the index-building part): partition via
`getPinnedPosts`, sort the pinned partition by `lastModifiedAt` and the
general partition by `createdAt`. -/
def displayAllPosts (currUser : String) (posts : List ViewPost) : ChannelDisplay :=
  let pg := getPinnedPosts currUser posts
  { pinnedList := List.insertionSort byLastModifiedAt pg.1
    generalList := List.insertionSort byCreatedAt pg.2 }

/-! ### Concrete documents used to exercise duplicate deliveries and root
insertions -/

/-- A stored post item with one smile reaction by bob. -/
def exDupItem : PItem :=
  .mk "m" "u" 1 "/p" [1, 0, 0, 0] (some ⟨some ["bob"], none, none, none⟩) [] none

/-- A delivery of the same post `/p` carrying reaction sets identical to
`exDupItem`'s (and the same absent pins): a pure duplicate. -/
def exDupPost : ViewPost :=
  ⟨"/p", ⟨"m", none, some ⟨some ["bob"], none, none, none⟩, none⟩, ⟨"u", 1, "u", 2⟩⟩

/-- A top-level post created first (`createdAt = 100`). -/
def exRootAPost : ViewPost :=
  ⟨"/a", ⟨"a", none, none, none⟩, ⟨"u", 100, "u", 100⟩⟩

/-- A top-level post created second (`createdAt = 200`). -/
def exRootBPost : ViewPost :=
  ⟨"/b", ⟨"b", none, none, none⟩, ⟨"u", 200, "u", 200⟩⟩

/-! ### Concrete documents used to exercise the partition build -/

/-- A top-level post pinned by alice. -/
def exPinParent : ViewPost :=
  ⟨"/p", ⟨"hi", none, none, some ["alice"]⟩, ⟨"alice", 100, "alice", 100⟩⟩

/-- A reply to `/p` whose own pins array exists but names only bob. -/
def exPinChild : ViewPost :=
  ⟨"/q", ⟨"re", some "/p", none, some ["bob"]⟩, ⟨"bob", 150, "bob", 150⟩⟩

/-! ### Concrete three-level thread used to exercise `togglePin`:
a root post `/r` with reply `/c`, which itself has reply `/g`. -/

/-- Grandchild post item `/g` (a reply to `/c`). -/
def exG : PItem := .mk "g" "u" 3 "/g" [0, 0, 0, 0] none [] (some "/c")

/-- Child post item `/c` (a reply to `/r`, with reply `/g`). -/
def exC : PItem := .mk "c" "u" 2 "/c" [0, 0, 0, 0] none [exG] (some "/r")

/-- Root post item `/r` with reply `/c`. -/
def exR : PItem := .mk "r" "u" 1 "/r" [0, 0, 0, 0] none [exC] none

/-! ## Map lemmas -/

theorem mapGet_mapSet_self (m : PostMap) (k : String) (v : PItem) :
    mapGet (mapSet m k v) k = some v := by
  induction m with
  | nil => simp [mapGet, mapSet]
  | cons e rest ih =>
    by_cases h : e.1 = k
    · simp [mapSet, h, mapGet]
    · simp [mapSet, h, mapGet, ih]

theorem mapGet_mapSet_ne (m : PostMap) (k q : String) (v : PItem) (h : q ≠ k) :
    mapGet (mapSet m k v) q = mapGet m q := by
  have hkq : ¬ k = q := fun hh => h hh.symm
  induction m with
  | nil => simp [mapGet, mapSet, hkq]
  | cons e rest ih =>
    by_cases he : e.1 = k
    · have heq : ¬ e.1 = q := fun hh => h (hh ▸ he : q = k)
      simp [mapSet, he, mapGet, hkq, heq]
    · simp [mapSet, he, mapGet, ih]

theorem mapGet_mapDelete_self (m : PostMap) (k : String) :
    mapGet (mapDelete m k) k = none := by
  induction m with
  | nil => simp [mapGet, mapDelete]
  | cons e rest ih =>
    by_cases h : e.1 = k
    · simp [mapDelete, h, ih]
    · simp [mapDelete, h, mapGet, ih]

theorem mapGet_mapDelete_ne (m : PostMap) (k q : String) (h : q ≠ k) :
    mapGet (mapDelete m k) q = mapGet m q := by
  induction m with
  | nil => simp [mapGet, mapDelete]
  | cons e rest ih =>
    by_cases he : e.1 = k
    · have heq : ¬ e.1 = q := fun hq => h ((hq ▸ he : q = k))
      have hkq : ¬ k = q := fun hh => h hh.symm
      simp [mapDelete, he, mapGet, heq, hkq, ih]
    · simp [mapDelete, he, mapGet, ih]

theorem mapSet_mapSet (m : PostMap) (k : String) (v w : PItem) :
    mapSet (mapSet m k v) k w = mapSet m k w := by
  induction m with
  | nil => simp [mapSet]
  | cons e rest ih =>
    by_cases h : e.1 = k
    · simp [mapSet, h]
    · simp [mapSet, h, ih]

theorem mapSet_self (m : PostMap) (k : String) (v : PItem)
    (h : mapGet m k = some v) : mapSet m k v = m := by
  induction m with
  | nil => simp [mapGet] at h
  | cons e rest ih =>
    by_cases he : e.1 = k
    · have h2 : e.2 = v := by
        have hx := h
        simp [mapGet, he] at hx
        exact hx
      have hs : mapSet (e :: rest) k v = (k, v) :: rest := by
        simp [mapSet, he]
      rw [hs, ← he, ← h2]
    · have h3 : mapGet rest k = some v := by
        have hx := h
        simp [mapGet, he] at hx
        exact hx
      simp [mapSet, he, ih h3]

/-! ## C7: subscription lifecycle -/

/-- C7 counterexample: starting from the idle model, two bare `subscribe`
calls leave two streams active at once: `subscribe` itself does not cancel
the previous stream, it only replaces the stored abort controller, so the
claimed at-most-one-live-subscription guarantee of `subscribe` alone is
false. -/
theorem subscribe_does_not_cancel_counterexample :
    (subscribe (subscribe ⟨none, 0, []⟩)).activeStreams = [0, 1] ∧
      (subscribe (subscribe ⟨none, 0, []⟩)).activeStreams.length = 2 := by
  constructor <;> rfl

/-- C7 amended: `unsubscribe` with no active stream is a no-op, and every
`subscribe` that is preceded by `unsubscribe` — as the `displayChannelEvent`
listener always does — preserves the at-most-one-active-stream invariant;
`subscribe` on its own does not cancel the previous stream. -/
theorem unsubscribe_then_subscribe_single_active (m : SubLifecycle)
    (hm : SubInv m) :
    (m.controller = none → unsubscribe m = m) ∧
      SubInv (unsubscribe m) ∧
      SubInv (displayChannelResubscribe m) ∧
      (displayChannelResubscribe m).activeStreams.length ≤ 1 := by
  have hunsub : (unsubscribe m).activeStreams = [] := by
    rcases hm with hempty | ⟨c, hc, hact⟩
    · cases hco : m.controller with
      | none => simp [unsubscribe, hco, hempty]
      | some c => simp [unsubscribe, hco, hempty]
    · simp [unsubscribe, hc, hact]
  refine ⟨fun hnone => ?_, ?_, ?_, ?_⟩
  · simp [unsubscribe, hnone]
  · exact Or.inl hunsub
  · exact Or.inr ⟨(unsubscribe m).nextStream, rfl, by
      simp [displayChannelResubscribe, subscribe, hunsub]⟩
  · simp [displayChannelResubscribe, subscribe, hunsub]

/-- C7 amended witness. -/
theorem unsubscribe_then_subscribe_single_active_witness :
    SubInv ⟨some 0, 1, [0]⟩ ∧
      (displayChannelResubscribe ⟨some 0, 1, [0]⟩).activeStreams.length ≤ 1 := by
  have h : SubInv ⟨some 0, 1, [0]⟩ := Or.inr ⟨0, rfl, rfl⟩
  exact ⟨h, (unsubscribe_then_subscribe_single_active ⟨some 0, 1, [0]⟩ h).2.2.2⟩

/-! ## C9: stream input validation -/

/-- C9: the subscription handler dispatches a state-changing update exactly
when the inbound message's event type is `"update"` and its parsed payload
validates against the PostUpdate schema; every other message (keep-alive,
schema-invalid shape) is ignored and causes no state change. -/
theorem onmessage_validates (msg : StreamMessage) :
    (onmessage msg).isSome ↔ (msg.event = "update" ∧ isPostUpdate msg.data = true) := by
  by_cases he : msg.event = "update"
  · by_cases hv : isPostUpdate msg.data
    · simp [onmessage, he, hv]
    · simp [onmessage, he, hv]
  · simp [onmessage, he]

/-! ## C3: self-echo suppression -/

/-- C3: a stream-delivered update whose delivery identifier attributes the
change to the current logged-in user (the id ends with that username, which
is how `main.ts` recognises a mutation this client itself issued) is
discarded by the `updatePostEvent` listener: the view state — the stored
reaction data and displayed counts of every post — is exactly what the
earlier optimistic update left there. -/
theorem selfEcho_suppressed (st : ViewState) (id : String) (post : ViewPost)
    (currentUser : String) (h : jsEndsWith id currentUser = true) :
    processUpdateEvent st id post currentUser = st := by
  simp [processUpdateEvent, h]

/-- C3 witness: the echo of alice's own reaction (id `"17alice"`) leaves a
concrete state untouched. -/
theorem selfEcho_suppressed_witness :
    jsEndsWith "17alice" "alice" = true ∧
      processUpdateEvent ⟨[], [], ""⟩ "17alice"
        ⟨"/p", ⟨"hi", none, none, none⟩, ⟨"alice", 1, "alice", 1⟩⟩ "alice" =
        ⟨[], [], ""⟩ :=
  ⟨by decide,
   selfEcho_suppressed ⟨[], [], ""⟩ "17alice"
     ⟨"/p", ⟨"hi", none, none, none⟩, ⟨"alice", 1, "alice", 1⟩⟩ "alice" (by decide)⟩

/-! ## C4: duplicate-delivery discard -/

/-- When the new and old count arrays are the same list, every iteration of
`findReactor`'s loop compares an entry with itself (or `undefined` with
`undefined`) and lands in the `else` that writes `"same"`. -/
theorem findReactorStep_self (c : List Int) (r r2 : Option Reactions)
    (u : Option String) (v : Int) :
    findReactorStep c c r r2 u v = some "same" := by
  cases h : jsAt c v with
  | none => simp [findReactorStep, h]
  | some x => simp [findReactorStep, h, lt_irrefl]

theorem foldl_const_same (f : Option String → Int → Option String)
    (hf : ∀ u v, f u v = some "same") :
    ∀ (l : List Int) (u : Option String), l ≠ [] → l.foldl f u = some "same" := by
  intro l
  induction l with
  | nil => intro u h; exact absurd rfl h
  | cons x xs ih =>
    intro u _
    cases hxs : xs with
    | nil => simp [List.foldl, hf]
    | cons y ys =>
      have hthis := ih (f u x) (by simp [hxs])
      rw [hxs] at hthis
      simpa [List.foldl] using hthis

/-- `getReactions` always returns the four counts. -/
theorem getReactions_ne_nil (r : Option Reactions) : getReactions r ≠ [] := by
  cases r <;> simp [getReactions]

/-- `findReactor` on identical count arrays returns `"same"`. -/
theorem findReactor_self (c : List Int) (hne : c ≠ [])
    (r r2 : Option Reactions) : findReactor c c r r2 = some "same" :=
  foldl_const_same _ (fun u v => findReactorStep_self c r r2 u v) c (some "") hne

/-- C4 counterexample: for a post held only in `pinnedPostMapping` (where
`togglePin` puts pinned posts), an incoming duplicate delivery with reaction
and pin sets identical to the stored ones is NOT discarded: `updatePosts`
looks the path up in `allPostMapping` only, misses, takes the new-post
branch, and inserts a fresh duplicate item into the general mapping — the
stored state changes and the post now has entries in both mappings. -/
theorem duplicateDelivery_pinned_counterexample :
    mapGet (⟨[], [("/p", exDupItem)], ""⟩ : ViewState).pinnedPostMapping "/p" =
      some exDupItem ∧
    exDupPost.doc.reactions = exDupItem.reactors ∧
    exDupPost.doc.pins = none ∧
    mapGet (⟨[], [("/p", exDupItem)], ""⟩ : ViewState).allPostMapping "/p" = none ∧
    mapGet (updatePosts ⟨[], [("/p", exDupItem)], ""⟩ exDupPost "7"
        "alice").allPostMapping "/p" = some (postFromUpdate exDupPost []) ∧
    mapGet (updatePosts ⟨[], [("/p", exDupItem)], ""⟩ exDupPost "7"
        "alice").pinnedPostMapping "/p" = some exDupItem := by
  exact ⟨rfl, rfl, rfl, rfl, rfl, rfl⟩

/-- C4 amended: an incoming update on a path present in the GENERAL mapping
(`allPostMapping`) whose reaction membership sets are identical to the
stored ones (a pure keep-alive or duplicate delivery) is discarded — for
every delivery id shape, `updatePosts` returns the state unchanged (the pin
sets are not even consulted on this path).  A path held only in the pinned
mapping is missed by the known-path lookup and re-inserted instead (see the
counterexample). -/
theorem duplicateDelivery_discarded (st : ViewState) (post : ViewPost)
    (id currentUser : String) (replace : PItem)
    (hknown : mapGet st.allPostMapping post.path = some replace)
    (hsame : post.doc.reactions = replace.reactors) :
    updatePosts st post id currentUser = st := by
  have hfr : findReactor (getReactions post.doc.reactions)
      (getReactions replace.reactors) post.doc.reactions replace.reactors =
      some "same" := by
    rw [hsame]
    exact findReactor_self _ (getReactions_ne_nil _) _ _
  by_cases h1 : jsParseIntNaN id
  · by_cases h2 : lastCharNonNumeric id
    · simp [updatePosts, h1, h2, hknown, hfr]
    · simp [updatePosts, h1, h2]
  · simp [updatePosts, h1, hknown, hfr]

/-- C4 witness: a duplicate delivery of a post with one smile reaction, on a
state already storing exactly those sets, changes nothing. -/
theorem duplicateDelivery_discarded_witness :
    mapGet [("/p", PItem.mk "m" "u" 1 "/p" [1, 0, 0, 0]
        (some ⟨some ["bob"], none, none, none⟩) [] none)] "/p" =
      some (PItem.mk "m" "u" 1 "/p" [1, 0, 0, 0]
        (some ⟨some ["bob"], none, none, none⟩) [] none) ∧
    updatePosts
      ⟨[("/p", PItem.mk "m" "u" 1 "/p" [1, 0, 0, 0]
          (some ⟨some ["bob"], none, none, none⟩) [] none)], [], ""⟩
      ⟨"/p", ⟨"m", none, some ⟨some ["bob"], none, none, none⟩, none⟩, ⟨"u", 1, "u", 2⟩⟩
      "42" "alice" =
      ⟨[("/p", PItem.mk "m" "u" 1 "/p" [1, 0, 0, 0]
          (some ⟨some ["bob"], none, none, none⟩) [] none)], [], ""⟩ :=
  ⟨rfl,
   duplicateDelivery_discarded _ _ "42" "alice" _ rfl rfl⟩

/-! ## C10: updateReactions on an unknown path -/

/-- C10: `updateReactions` on a path present in neither mapping throws (an
`Except.error`, never a silent no-op); when the path is present, the general
mapping is consulted first and the pinned mapping only second: the update is
applied to the general entry whenever one exists, and to the pinned entry
only when the general lookup misses. -/
theorem updateReactions_unknown_path_throws :
    (∀ (st : ViewState) (p e : String) (b : Bool),
      mapGet st.allPostMapping p = none → mapGet st.pinnedPostMapping p = none →
      updateReactions st p e b =
        Except.error "The post with the specified path is undefined") ∧
    (∀ (st : ViewState) (p e : String) (b : Bool) (it : PItem),
      mapGet st.allPostMapping p = some it →
      updateReactions st p e b = (applyReaction it e b).map
        (fun x => { st with allPostMapping := mapSet st.allPostMapping p x })) ∧
    (∀ (st : ViewState) (p e : String) (b : Bool) (it : PItem),
      mapGet st.allPostMapping p = none →
      mapGet st.pinnedPostMapping p = some it →
      updateReactions st p e b = (applyReaction it e b).map
        (fun x => { st with pinnedPostMapping := mapSet st.pinnedPostMapping p x })) := by
  refine ⟨fun st p e b h1 h2 => ?_, fun st p e b it h1 => ?_, fun st p e b it h1 h2 => ?_⟩
  · simp [updateReactions, h1, h2]
  · simp [updateReactions, h1]
  · simp [updateReactions, h1, h2]

/-- C10 witness: on the empty state the call errors; with a post stored in
both mappings, the general entry is the one updated. -/
theorem updateReactions_unknown_path_throws_witness :
    updateReactions ⟨[], [], ""⟩ "/p" "like" false =
      Except.error "The post with the specified path is undefined" :=
  updateReactions_unknown_path_throws.1 ⟨[], [], ""⟩ "/p" "like" false rfl rfl

/-! ## C8: idempotent reaction toggle -/

theorem getRSet_ensure (m : List (String × List String)) (k q : String) :
    getRSet q (some (ensureRKey m k)) = getRSet q (some m) := by
  unfold ensureRKey
  by_cases hk : hasRKey m k
  · simp [hk]
  · simp only [hk, Bool.false_eq_true, if_false, if_neg]
    have hnone : m.find? (fun e => e.1 = k) = none := by
      unfold hasRKey at hk
      exact Option.not_isSome_iff_eq_none.mp (by simpa using hk)
    by_cases hq : q = k
    · subst hq
      simp [getRSet, List.find?_append, hnone]
    · have hkq : ¬ k = q := fun hh => hq hh.symm
      simp [getRSet, List.find?_append, hkq]

theorem hasRKey_ensure_self (m : List (String × List String)) (k : String) :
    hasRKey (ensureRKey m k) k = true := by
  unfold ensureRKey
  by_cases hk : hasRKey m k
  · simp [hk]
  · have hnone : m.find? (fun e => e.1 = k) = none := by
      unfold hasRKey at hk
      exact Option.not_isSome_iff_eq_none.mp (by simpa using hk)
    simp [hk, hasRKey, List.find?_append, hnone]

theorem hasRKey_ensure_mono (m : List (String × List String)) (k q : String)
    (h : hasRKey m q = true) : hasRKey (ensureRKey m k) q = true := by
  unfold ensureRKey
  by_cases hk : hasRKey m k
  · simpa [hk] using h
  · simp only [hk, Bool.false_eq_true, if_false, if_neg]
    unfold hasRKey at h ⊢
    rw [List.find?_append]
    rcases Option.isSome_iff_exists.mp h with ⟨e, he⟩
    rw [he]
    rfl

theorem hasRKey_setRKey (m : List (String × List String)) (k q : String)
    (f : List String → List String) :
    hasRKey (setRKey m k f) q = hasRKey m q := by
  induction m with
  | nil => rfl
  | cons e rest ih =>
    unfold hasRKey at ih ⊢
    by_cases he : e.1 = k
    · by_cases hq : k = q
      · simp [setRKey, he, List.find?, hq]
      · simp [setRKey, he, List.find?, hq]
    · by_cases hq : e.1 = q
      · have hqk : ¬ q = k := fun hh => he (hq.trans hh)
        simp [setRKey, he, List.find?, hq, hqk]
      · simp [setRKey, he, List.find?, hq, ih]

theorem getRSet_setRKey_self (m : List (String × List String)) (k : String)
    (f : List String → List String) (h : hasRKey m k = true) :
    getRSet k (some (setRKey m k f)) = f (getRSet k (some m)) := by
  induction m with
  | nil => simp [hasRKey, List.find?] at h
  | cons e rest ih =>
    by_cases he : e.1 = k
    · simp [setRKey, he, getRSet, List.find?]
    · have h2 : hasRKey rest k = true := by
        unfold hasRKey at h ⊢
        simpa [List.find?, he] using h
      have := ih h2
      simpa [setRKey, getRSet, List.find?, he] using this

theorem getRSet_setRKey_ne (m : List (String × List String)) (k q : String)
    (f : List String → List String) (h : q ≠ k) :
    getRSet q (some (setRKey m k f)) = getRSet q (some m) := by
  have hkq : ¬ k = q := fun hh => h hh.symm
  induction m with
  | nil => rfl
  | cons e rest ih =>
    by_cases he : e.1 = k
    · have heq : ¬ e.1 = q := fun hq => h ((hq ▸ he : q = k))
      simp [setRKey, he, getRSet, List.find?, heq, hkq]
    · by_cases hq : e.1 = q
      · have hqk : ¬ q = k := fun hh => he (hq.trans hh)
        simp [setRKey, he, getRSet, List.find?, hq, hqk]
      · simpa [setRKey, he, getRSet, List.find?, hq] using ih

theorem applyPatch_root (d : RDoc) :
    applyPatch d ⟨"ObjectAdd", .reactionsRoot, none⟩ = some (docMembers d) := by
  cases d <;> rfl

theorem getRSet_docMembers (d : RDoc) (q : String) :
    getRSet q (some (docMembers d)) = getRSet q d := by
  cases d <;> rfl

theorem applyPatch_keyAdd (m : List (String × List String)) (k : String) :
    applyPatch (some m) ⟨"ObjectAdd", .reactionsKey k, none⟩ = some (ensureRKey m k) := by
  rfl

theorem applyPatch_arrAdd (m : List (String × List String)) (k u : String) :
    applyPatch (some m) ⟨"ArrayAdd", .reactionsKey k, some u⟩ =
      some (setRKey m k (arrayAdd u)) := by
  rfl

theorem applyPatch_arrRemove (m : List (String × List String)) (k u : String) :
    applyPatch (some m) ⟨"ArrayRemove", .reactionsKey k, some u⟩ =
      some (setRKey m k (arrayRemove u)) := by
  rfl

theorem arrayRemove_arrayAdd (u : String) (s : List String) (h : u ∉ s) :
    arrayRemove u (arrayAdd u s) = s := by
  simp only [arrayAdd, h, if_neg, ite_false, arrayRemove, List.filter_append]
  have h1 : [u].filter (fun x => x ≠ u) = [] := by simp
  have h2 : s.filter (fun x => x ≠ u) = s :=
    List.filter_eq_self.mpr (fun x hx => by
      simp only [ne_eq, decide_eq_true_eq]
      exact fun hh => h (hh ▸ hx))
  rw [h1, h2, List.append_nil]

theorem reactionIndex_cases (e : String) (idx : Nat)
    (h : reactionIndex e = some idx) :
    e = "smile" ∨ e = "like" ∨ e = "frown" ∨ e = "celebrate" := by
  unfold reactionIndex at h
  split_ifs at h with h1 h2 h3 h4
  · exact Or.inl h1
  · exact Or.inr (Or.inl h2)
  · exact Or.inr (Or.inr (Or.inl h3))
  · exact Or.inr (Or.inr (Or.inr h4))

/-- Incrementing a displayed count and then decrementing it restores the
count list exactly (also out of range, where both writes are no-ops and the
reads default to 0). -/
theorem set_incr_decr_restore :
    ∀ (l : List Int) (i : Nat),
      l.set i ((l.set i (l.getD i 0 + 1)).getD i 0 - 1) = l := by
  intro l
  induction l with
  | nil => intro i; rfl
  | cons x xs ih =>
    intro i
    cases i with
    | zero => simp
    | succ n =>
      have h2 := ih n
      simpa using h2

theorem setCount_counts (it : PItem) (i : Nat) (v : Int) :
    (it.setCount i v).counts = it.counts.set i v := by
  cases it
  rfl

/-- The optimistic `updateReactions` counter mutation, applied as a react
(`reacted = false`) and then an unreact (`reacted = true`), returns the item
to its exact prior state. -/
theorem applyReaction_restore (it : PItem) (e : String) (idx : Nat)
    (hidx : reactionIndex e = some idx) :
    applyReaction it e false = Except.ok (it.setCount idx (it.counts.getD idx 0 + 1)) ∧
      applyReaction (it.setCount idx (it.counts.getD idx 0 + 1)) e true = Except.ok it := by
  constructor
  · simp [applyReaction, hidx]
  · cases it with
  | mk m cb t p cnt r cs par =>
    have h2 := set_incr_decr_restore cnt idx
    simp [applyReaction, hidx, PItem.setCount, PItem.counts]
    simpa using h2

theorem docMembers_some (m : List (String × List String)) :
    docMembers (some m) = m := rfl

/-- The stored reaction member sets after a react patch list followed by the
matching unreact patch list are exactly the prior sets (for every member
key). -/
theorem docRoundTrip_sets (d : RDoc) (e u : String)
    (he : e = "smile" ∨ e = "like" ∨ e = "frown" ∨ e = "celebrate")
    (hu : u ∉ getRSet (emojiKey e) d) :
    ∀ q, getRSet q (docReactRoundTrip d e u) = getRSet q d := by
  intro q
  have hfold : docReactRoundTrip d e u =
      some (setRKey (ensureRKey (ensureRKey (ensureRKey (ensureRKey
          (setRKey (ensureRKey (ensureRKey (ensureRKey (ensureRKey (docMembers d)
              ":smile:") ":like:") ":frown:") ":celebrate:")
            (emojiKey e) (arrayAdd u))
          ":smile:") ":like:") ":frown:") ":celebrate:")
        (emojiKey e) (arrayRemove u)) := by
    simp [docReactRoundTrip, triggerReactionPatches, List.foldl, applyPatch_root,
      applyPatch_keyAdd, applyPatch_arrAdd, applyPatch_arrRemove, docMembers_some]
  have hM4 : hasRKey (ensureRKey (ensureRKey (ensureRKey (ensureRKey (docMembers d)
      ":smile:") ":like:") ":frown:") ":celebrate:") (emojiKey e) = true := by
    rcases he with h | h | h | h <;> subst h
    · exact hasRKey_ensure_mono _ _ _ (hasRKey_ensure_mono _ _ _
        (hasRKey_ensure_mono _ _ _ (hasRKey_ensure_self _ _)))
    · exact hasRKey_ensure_mono _ _ _ (hasRKey_ensure_mono _ _ _
        (hasRKey_ensure_self _ _))
    · exact hasRKey_ensure_mono _ _ _ (hasRKey_ensure_self _ _)
    · exact hasRKey_ensure_self _ _
  have hM5 : hasRKey (setRKey (ensureRKey (ensureRKey (ensureRKey (ensureRKey
      (docMembers d) ":smile:") ":like:") ":frown:") ":celebrate:")
        (emojiKey e) (arrayAdd u)) (emojiKey e) = true := by
    rw [hasRKey_setRKey]
    exact hM4
  have hM9 : hasRKey (ensureRKey (ensureRKey (ensureRKey (ensureRKey
      (setRKey (ensureRKey (ensureRKey (ensureRKey (ensureRKey (docMembers d)
          ":smile:") ":like:") ":frown:") ":celebrate:")
        (emojiKey e) (arrayAdd u))
      ":smile:") ":like:") ":frown:") ":celebrate:") (emojiKey e) = true :=
    hasRKey_ensure_mono _ _ _ (hasRKey_ensure_mono _ _ _
      (hasRKey_ensure_mono _ _ _ (hasRKey_ensure_mono _ _ _ hM5)))
  rw [hfold]
  by_cases hk : q = emojiKey e
  · subst hk
    rw [getRSet_setRKey_self _ _ _ hM9]
    simp only [getRSet_ensure]
    rw [getRSet_setRKey_self _ _ _ hM4]
    simp only [getRSet_ensure, getRSet_docMembers]
    exact arrayRemove_arrayAdd u _ hu
  · rw [getRSet_setRKey_ne _ _ _ _ hk]
    simp only [getRSet_ensure]
    rw [getRSet_setRKey_ne _ _ _ _ hk]
    simp only [getRSet_ensure, getRSet_docMembers]

/-- C8: reacting (`reacted = false`) and then unreacting (`reacted = true`)
with the same emoji by the same user on the same post returns the displayed
count (and the whole view state) and the stored reaction member sets to their
exact prior values.  The view part runs the two `updateReactions` calls the
`reactEvent` listener issues; the document part applies the two patch lists
`Model.triggerReaction` sends. -/
theorem reactionToggle_idempotent (st : ViewState) (p e : String) (idx : Nat)
    (it : PItem) (d : RDoc) (u : String)
    (hidx : reactionIndex e = some idx)
    (hit : lookupPost st p = some it)
    (hu : u ∉ getRSet (emojiKey e) d) :
    reactThenUnreact st p e = Except.ok st ∧
      (∀ k, getRSet k (docReactRoundTrip d e u) = getRSet k d) := by
  have hdoc := docRoundTrip_sets d e u (reactionIndex_cases e idx hidx) hu
  refine ⟨?_, hdoc⟩
  have hr := applyReaction_restore it e idx hidx
  unfold lookupPost at hit
  cases h1 : mapGet st.allPostMapping p with
  | some x =>
    rw [h1] at hit
    have hx : x = it := by
      simpa using hit
    subst hx
    have e1 : updateReactions st p e false = Except.ok
        { st with allPostMapping :=
            mapSet st.allPostMapping p (x.setCount idx (x.counts.getD idx 0 + 1)) } := by
      simp [updateReactions, h1, hr.1, Except.map]
    have h2 : mapGet (mapSet st.allPostMapping p
        (x.setCount idx (x.counts.getD idx 0 + 1))) p =
        some (x.setCount idx (x.counts.getD idx 0 + 1)) :=
      mapGet_mapSet_self _ _ _
    have e2 : updateReactions
        { st with allPostMapping :=
            mapSet st.allPostMapping p (x.setCount idx (x.counts.getD idx 0 + 1)) }
        p e true = Except.ok st := by
      simp only [updateReactions, h2, hr.2, Except.map]
      rw [mapSet_mapSet, mapSet_self _ _ _ h1]
    unfold reactThenUnreact
    rw [e1]
    simpa [Except.bind] using e2
  | none =>
    rw [h1] at hit
    have hitp : mapGet st.pinnedPostMapping p = some it := by simpa using hit
    have e1 : updateReactions st p e false = Except.ok
        { st with pinnedPostMapping :=
            mapSet st.pinnedPostMapping p (it.setCount idx (it.counts.getD idx 0 + 1)) } := by
      simp [updateReactions, h1, hitp, hr.1, Except.map]
    have h2 : mapGet (mapSet st.pinnedPostMapping p
        (it.setCount idx (it.counts.getD idx 0 + 1))) p =
        some (it.setCount idx (it.counts.getD idx 0 + 1)) :=
      mapGet_mapSet_self _ _ _
    have e2 : updateReactions
        { st with pinnedPostMapping :=
            mapSet st.pinnedPostMapping p (it.setCount idx (it.counts.getD idx 0 + 1)) }
        p e true = Except.ok st := by
      simp only [updateReactions, h1, h2, hr.2, Except.map]
      rw [mapSet_mapSet, mapSet_self _ _ _ hitp]
    unfold reactThenUnreact
    rw [e1]
    simpa [Except.bind] using e2

/-- C8 witness: a like toggle by alice on a stored post, and the matching
patch round trip on a document where bob had already liked. -/
theorem reactionToggle_idempotent_witness :
    reactThenUnreact
      ⟨[("/p", PItem.mk "m" "u" 1 "/p" [0, 1, 0, 0]
          (some ⟨none, some ["bob"], none, none⟩) [] none)], [], ""⟩
      "/p" "like" =
      Except.ok
      ⟨[("/p", PItem.mk "m" "u" 1 "/p" [0, 1, 0, 0]
          (some ⟨none, some ["bob"], none, none⟩) [] none)], [], ""⟩ ∧
    (∀ k, getRSet k (docReactRoundTrip (some [(":like:", ["bob"])]) "like" "alice") =
      getRSet k (some [(":like:", ["bob"])])) := by
  have h := reactionToggle_idempotent
    ⟨[("/p", PItem.mk "m" "u" 1 "/p" [0, 1, 0, 0]
        (some ⟨none, some ["bob"], none, none⟩) [] none)], [], ""⟩
    "/p" "like" 1
    (PItem.mk "m" "u" 1 "/p" [0, 1, 0, 0]
      (some ⟨none, some ["bob"], none, none⟩) [] none)
    (some [(":like:", ["bob"])]) "alice"
    (by decide) rfl (by decide)
  exact h

/-! ## C6: unknown-parent handling -/

/-- C6 counterexample: an update for an unknown path whose parent `"/x"` is
not in the index is NOT dropped with the store unchanged — `updatePosts`
inserts the orphan into `allPostMapping` before it looks the parent up, so
the tree store differs from its prior (empty) state by the orphan entry. -/
theorem unknownParent_counterexample :
    mapGet (updatePosts ⟨[], [], ""⟩
        ⟨"/x/c", ⟨"hi", some "/x", none, none⟩, ⟨"bob", 5, "bob", 5⟩⟩
        "7" "alice").allPostMapping "/x/c" =
      some (postFromUpdate
        ⟨"/x/c", ⟨"hi", some "/x", none, none⟩, ⟨"bob", 5, "bob", 5⟩⟩ []) ∧
    mapGet (⟨[], [], ""⟩ : ViewState).allPostMapping "/x/c" = none := by
  constructor <;> rfl

/-- C6 amended: on an incoming update (stream or local id shape) with an
unknown path and a nonempty parent that is not in the index, `updatePosts`
does not attach the orphan to any child list and leaves every existing entry
and the pinned mapping unchanged, but it does insert the orphan itself into
the general path mapping (and branch two still records the event id); no
defect is logged on this path. -/
theorem unknownParent_orphan_inserted (st : ViewState) (post : ViewPost)
    (id user par : String)
    (hbranch : jsParseIntNaN id = false ∨ lastCharNonNumeric id = true)
    (hpar : post.doc.parent = some par) (hne : par ≠ "") (hpp : par ≠ post.path)
    (hunknown : mapGet st.allPostMapping post.path = none)
    (hparent : mapGet st.allPostMapping par = none) :
    (updatePosts st post id user).allPostMapping
        = mapSet st.allPostMapping post.path (postFromUpdate post []) ∧
      (updatePosts st post id user).pinnedPostMapping = st.pinnedPostMapping ∧
      (∀ q, q ≠ post.path →
        mapGet (updatePosts st post id user).allPostMapping q
          = mapGet st.allPostMapping q) ∧
      ((updatePosts st post id user).lastEventID = st.lastEventID ∨
        (updatePosts st post id user).lastEventID = id) := by
  have hget1 : mapGet (mapSet st.allPostMapping post.path (postFromUpdate post []))
      par = none := by
    rw [mapGet_mapSet_ne _ _ _ _ hpp]
    exact hparent
  by_cases h1 : jsParseIntNaN id = true
  · have h2 : lastCharNonNumeric id = true := by
      rcases hbranch with hb | hb
      · rw [hb] at h1
        exact absurd h1 (by simp)
      · exact hb
    have hres : updatePosts st post id user =
        ⟨mapSet st.allPostMapping post.path (postFromUpdate post []),
         st.pinnedPostMapping, id⟩ := by
      simp [updatePosts, h1, h2, hunknown, hpar, hne, hget1]
    refine ⟨by rw [hres], by rw [hres], fun q hq => ?_, Or.inr (by rw [hres])⟩
    rw [hres]
    exact mapGet_mapSet_ne _ _ _ _ hq
  · have h1f : jsParseIntNaN id = false := by
      cases hb : jsParseIntNaN id
      · rfl
      · exact absurd hb h1
    have hres : updatePosts st post id user =
        ⟨mapSet st.allPostMapping post.path (postFromUpdate post []),
         st.pinnedPostMapping, st.lastEventID⟩ := by
      simp [updatePosts, h1f, hunknown, hpar, hne, hget1]
    refine ⟨by rw [hres], by rw [hres], fun q hq => ?_, Or.inl (by rw [hres])⟩
    rw [hres]
    exact mapGet_mapSet_ne _ _ _ _ hq

/-- C6 amended witness: the concrete orphan of the counterexample lands in
the general mapping with the pinned mapping untouched. -/
theorem unknownParent_orphan_inserted_witness :
    (updatePosts ⟨[], [], ""⟩
        ⟨"/x/c", ⟨"hi", some "/x", none, none⟩, ⟨"bob", 5, "bob", 5⟩⟩
        "7" "alice").allPostMapping
      = mapSet ([] : PostMap) "/x/c" (postFromUpdate
          ⟨"/x/c", ⟨"hi", some "/x", none, none⟩, ⟨"bob", 5, "bob", 5⟩⟩ []) :=
  (unknownParent_orphan_inserted ⟨[], [], ""⟩
      ⟨"/x/c", ⟨"hi", some "/x", none, none⟩, ⟨"bob", 5, "bob", 5⟩⟩
      "7" "alice" "/x" (Or.inl (by decide)) rfl (by decide) (by decide)
      rfl rfl).1

/-! ## C2: pin cascade -/

theorem pinChildFold_not_mem (cs : List PItem) (ap : PostMap × PostMap)
    (q : String) (h : q ∉ cs.map PItem.path) :
    mapGet (pinChildFold cs ap).1 q = mapGet ap.1 q ∧
      mapGet (pinChildFold cs ap).2 q = mapGet ap.2 q := by
  induction cs generalizing ap with
  | nil => exact ⟨rfl, rfl⟩
  | cons c rest ih =>
    have hq : q ≠ c.path := by
      intro hh
      exact h (by simp [hh])
    have hrest : q ∉ rest.map PItem.path := by
      intro hh
      exact h (by simp [hh])
    have step := ih (mapDelete ap.1 c.path, mapSet ap.2 c.path c) hrest
    refine ⟨?_, ?_⟩
    · rw [pinChildFold, List.foldl_cons, ← pinChildFold, step.1]
      exact mapGet_mapDelete_ne _ _ _ hq
    · rw [pinChildFold, List.foldl_cons, ← pinChildFold, step.2]
      exact mapGet_mapSet_ne _ _ _ _ hq

theorem pinChildFold_mem (cs : List PItem) (ap : PostMap × PostMap)
    (c : PItem) (hc : c ∈ cs) (hnd : (cs.map PItem.path).Nodup) :
    mapGet (pinChildFold cs ap).1 c.path = none ∧
      mapGet (pinChildFold cs ap).2 c.path = some c := by
  induction cs generalizing ap with
  | nil => cases hc
  | cons c0 rest ih =>
    rcases List.mem_cons.mp hc with hh | hh
    · subst hh
      have hhead : c.path ∉ rest.map PItem.path := by
        have := hnd
        simp only [List.map_cons, List.nodup_cons] at this
        exact this.1
      have step := pinChildFold_not_mem rest
        (mapDelete ap.1 c.path, mapSet ap.2 c.path c) c.path hhead
      refine ⟨?_, ?_⟩
      · rw [pinChildFold, List.foldl_cons, ← pinChildFold, step.1]
        exact mapGet_mapDelete_self _ _
      · rw [pinChildFold, List.foldl_cons, ← pinChildFold, step.2]
        exact mapGet_mapSet_self _ _ _
    · have hrest : (rest.map PItem.path).Nodup := by
        have := hnd
        simp only [List.map_cons, List.nodup_cons] at this
        exact this.2
      have := ih (mapDelete ap.1 c0.path, mapSet ap.2 c0.path c0) hh hrest
      refine ⟨?_, ?_⟩
      · rw [pinChildFold, List.foldl_cons, ← pinChildFold]
        exact this.1
      · rw [pinChildFold, List.foldl_cons, ← pinChildFold]
        exact this.2

theorem unpinChildFold_not_mem (cs : List PItem) (ap : PostMap × PostMap)
    (q : String) (h : q ∉ cs.map PItem.path) :
    mapGet (unpinChildFold cs ap).1 q = mapGet ap.1 q ∧
      mapGet (unpinChildFold cs ap).2 q = mapGet ap.2 q := by
  induction cs generalizing ap with
  | nil => exact ⟨rfl, rfl⟩
  | cons c rest ih =>
    have hq : q ≠ c.path := by
      intro hh
      exact h (by simp [hh])
    have hrest : q ∉ rest.map PItem.path := by
      intro hh
      exact h (by simp [hh])
    have step := ih (mapSet ap.1 c.path c, mapDelete ap.2 c.path) hrest
    refine ⟨?_, ?_⟩
    · rw [unpinChildFold, List.foldl_cons, ← unpinChildFold, step.1]
      exact mapGet_mapSet_ne _ _ _ _ hq
    · rw [unpinChildFold, List.foldl_cons, ← unpinChildFold, step.2]
      exact mapGet_mapDelete_ne _ _ _ hq

theorem unpinChildFold_mem (cs : List PItem) (ap : PostMap × PostMap)
    (c : PItem) (hc : c ∈ cs) (hnd : (cs.map PItem.path).Nodup) :
    mapGet (unpinChildFold cs ap).1 c.path = some c ∧
      mapGet (unpinChildFold cs ap).2 c.path = none := by
  induction cs generalizing ap with
  | nil => cases hc
  | cons c0 rest ih =>
    rcases List.mem_cons.mp hc with hh | hh
    · subst hh
      have hhead : c.path ∉ rest.map PItem.path := by
        have := hnd
        simp only [List.map_cons, List.nodup_cons] at this
        exact this.1
      have step := unpinChildFold_not_mem rest
        (mapSet ap.1 c.path c, mapDelete ap.2 c.path) c.path hhead
      refine ⟨?_, ?_⟩
      · rw [unpinChildFold, List.foldl_cons, ← unpinChildFold, step.1]
        exact mapGet_mapSet_self _ _ _
      · rw [unpinChildFold, List.foldl_cons, ← unpinChildFold, step.2]
        exact mapGet_mapDelete_self _ _
    · have hrest : (rest.map PItem.path).Nodup := by
        have := hnd
        simp only [List.map_cons, List.nodup_cons] at this
        exact this.2
      have := ih (mapSet ap.1 c0.path c0, mapDelete ap.2 c0.path) hh hrest
      refine ⟨?_, ?_⟩
      · rw [unpinChildFold, List.foldl_cons, ← unpinChildFold]
        exact this.1
      · rw [unpinChildFold, List.foldl_cons, ← unpinChildFold]
        exact this.2

/-- C2 counterexample: pinning the root `/r` of the three-level thread moves
`/r` and its direct reply `/c` into the pinned mapping but leaves the
grandchild `/g` — a member of `/r`'s descendant subtree (it is `/c`'s reply)
— in the general mapping: the cascade is one level deep, not recursive, and
`/g` now sits in the opposite partition from its subtree root. -/
theorem pinCascade_depth_counterexample :
    togglePin ⟨[("/r", exR), ("/c", exC), ("/g", exG)], [], ""⟩ "/r" false =
      Except.ok ⟨[("/g", exG)], [("/r", exR), ("/c", exC)], ""⟩ ∧
    exC ∈ exR.children ∧ exG ∈ exC.children ∧
    mapGet [("/g", exG)] "/g" = some exG ∧
    mapGet [("/r", exR), ("/c", exC)] "/g" = none := by
  refine ⟨rfl, ?_, ?_, rfl, rfl⟩
  · simp [exR, exC, PItem.children]
  · simp [exC, exG, PItem.children]

/-- C2 amended: `togglePin(path, previouslyPinned)` moves the node at `path`
and its DIRECT children (`getChildren()`) — not deeper descendants — between
the general and pinned mappings; after the call each moved node is in the
target mapping and absent from the source mapping (so in exactly one of the
two), and every key outside the moved set is untouched in both mappings. -/
theorem togglePin_moves_direct_children :
    (∀ (st : ViewState) (p : String) (item : PItem),
      mapGet st.allPostMapping p = some item →
      (item.path :: item.children.map PItem.path).Nodup →
      ∃ st2, togglePin st p false = Except.ok st2 ∧
        mapGet st2.pinnedPostMapping item.path = some item ∧
        mapGet st2.allPostMapping item.path = none ∧
        (∀ c ∈ item.children, mapGet st2.pinnedPostMapping c.path = some c ∧
          mapGet st2.allPostMapping c.path = none) ∧
        (∀ q, q ∉ item.path :: item.children.map PItem.path →
          mapGet st2.allPostMapping q = mapGet st.allPostMapping q ∧
          mapGet st2.pinnedPostMapping q = mapGet st.pinnedPostMapping q)) ∧
    (∀ (st : ViewState) (p : String) (item : PItem),
      mapGet st.pinnedPostMapping p = some item →
      (item.path :: item.children.map PItem.path).Nodup →
      ∃ st2, togglePin st p true = Except.ok st2 ∧
        mapGet st2.allPostMapping item.path = some item ∧
        mapGet st2.pinnedPostMapping item.path = none ∧
        (∀ c ∈ item.children, mapGet st2.allPostMapping c.path = some c ∧
          mapGet st2.pinnedPostMapping c.path = none) ∧
        (∀ q, q ∉ item.path :: item.children.map PItem.path →
          mapGet st2.allPostMapping q = mapGet st.allPostMapping q ∧
          mapGet st2.pinnedPostMapping q = mapGet st.pinnedPostMapping q)) := by
  constructor
  · intro st p item hfind hnd
    have hhead : item.path ∉ item.children.map PItem.path :=
      (List.nodup_cons.mp hnd).1
    have hchild : (item.children.map PItem.path).Nodup :=
      (List.nodup_cons.mp hnd).2
    refine ⟨⟨(pinChildFold item.children
        (mapDelete st.allPostMapping item.path,
         mapSet st.pinnedPostMapping item.path item)).1,
      (pinChildFold item.children
        (mapDelete st.allPostMapping item.path,
         mapSet st.pinnedPostMapping item.path item)).2,
      st.lastEventID⟩, by simp [togglePin, hfind], ?_, ?_, ?_, ?_⟩
    · have step := pinChildFold_not_mem item.children
        (mapDelete st.allPostMapping item.path,
         mapSet st.pinnedPostMapping item.path item) item.path hhead
      rw [step.2]
      exact mapGet_mapSet_self _ _ _
    · have step := pinChildFold_not_mem item.children
        (mapDelete st.allPostMapping item.path,
         mapSet st.pinnedPostMapping item.path item) item.path hhead
      rw [step.1]
      exact mapGet_mapDelete_self _ _
    · intro c hc
      have step := pinChildFold_mem item.children
        (mapDelete st.allPostMapping item.path,
         mapSet st.pinnedPostMapping item.path item) c hc hchild
      exact ⟨step.2, step.1⟩
    · intro q hq
      have hqp : q ≠ item.path := by
        intro hh
        exact hq (by simp [hh])
      have hqc : q ∉ item.children.map PItem.path := by
        intro hh
        exact hq (by simp [hh])
      have step := pinChildFold_not_mem item.children
        (mapDelete st.allPostMapping item.path,
         mapSet st.pinnedPostMapping item.path item) q hqc
      constructor
      · rw [step.1]
        exact mapGet_mapDelete_ne _ _ _ hqp
      · rw [step.2]
        exact mapGet_mapSet_ne _ _ _ _ hqp
  · intro st p item hfind hnd
    have hhead : item.path ∉ item.children.map PItem.path :=
      (List.nodup_cons.mp hnd).1
    have hchild : (item.children.map PItem.path).Nodup :=
      (List.nodup_cons.mp hnd).2
    refine ⟨⟨(unpinChildFold item.children
        (mapSet st.allPostMapping item.path item,
         mapDelete st.pinnedPostMapping item.path)).1,
      (unpinChildFold item.children
        (mapSet st.allPostMapping item.path item,
         mapDelete st.pinnedPostMapping item.path)).2,
      st.lastEventID⟩, by simp [togglePin, hfind], ?_, ?_, ?_, ?_⟩
    · have step := unpinChildFold_not_mem item.children
        (mapSet st.allPostMapping item.path item,
         mapDelete st.pinnedPostMapping item.path) item.path hhead
      rw [step.1]
      exact mapGet_mapSet_self _ _ _
    · have step := unpinChildFold_not_mem item.children
        (mapSet st.allPostMapping item.path item,
         mapDelete st.pinnedPostMapping item.path) item.path hhead
      rw [step.2]
      exact mapGet_mapDelete_self _ _
    · intro c hc
      have step := unpinChildFold_mem item.children
        (mapSet st.allPostMapping item.path item,
         mapDelete st.pinnedPostMapping item.path) c hc hchild
      exact ⟨step.1, step.2⟩
    · intro q hq
      have hqp : q ≠ item.path := by
        intro hh
        exact hq (by simp [hh])
      have hqc : q ∉ item.children.map PItem.path := by
        intro hh
        exact hq (by simp [hh])
      have step := unpinChildFold_not_mem item.children
        (mapSet st.allPostMapping item.path item,
         mapDelete st.pinnedPostMapping item.path) q hqc
      constructor
      · rw [step.1]
        exact mapGet_mapSet_ne _ _ _ _ hqp
      · rw [step.2]
        exact mapGet_mapDelete_ne _ _ _ hqp

/-- C2 amended witness: pinning a root with one direct reply moves both into
the pinned mapping (the spec scenario of a root with its replies, at depth
one). -/
theorem togglePin_moves_direct_children_witness :
    ∃ st2, togglePin ⟨[("/c", exC), ("/g", exG)], [], ""⟩ "/c" false =
        Except.ok st2 ∧
      mapGet st2.pinnedPostMapping "/c" = some exC ∧
      mapGet st2.allPostMapping "/c" = none := by
  have h := togglePin_moves_direct_children.1
    ⟨[("/c", exC), ("/g", exG)], [], ""⟩ "/c" exC rfl (by decide)
  rcases h with ⟨st2, hok, hpin, hall, _, _⟩
  exact ⟨st2, hok, hpin, hall⟩

/-! ## C1: partition invariant -/

theorem getPinnedPostsAux_perm (u : String) :
    ∀ (l pinned general : List ViewPost),
      ((getPinnedPostsAux u l pinned general).1 ++
        (getPinnedPostsAux u l pinned general).2).Perm
        (pinned ++ general ++ l) := by
  intro l
  induction l with
  | nil =>
    intro pinned general
    simp [getPinnedPostsAux]
  | cons p rest ih =>
    intro pinned general
    by_cases hc : postPinCond u pinned p = true
    · unfold getPinnedPostsAux
      rw [if_pos hc]
      have hrec := ih (pinned ++ [p]) general
      have hrec2 : ((getPinnedPostsAux u rest (pinned ++ [p]) general).1 ++
          (getPinnedPostsAux u rest (pinned ++ [p]) general).2).Perm
          (pinned ++ p :: (general ++ rest)) := by
        simpa [List.append_assoc] using hrec
      rw [List.append_assoc]
      exact hrec2.trans (List.Perm.append_left pinned List.perm_middle.symm)
    · unfold getPinnedPostsAux
      rw [if_neg hc]
      have hrec := ih pinned (general ++ [p])
      simpa [List.append_assoc] using hrec

theorem getPinnedPostsAux_mono (u : String) :
    ∀ (l pinned general : List ViewPost) (q : ViewPost), q ∈ pinned →
      q ∈ (getPinnedPostsAux u l pinned general).1 := by
  intro l
  induction l with
  | nil =>
    intro pinned general q hq
    simpa [getPinnedPostsAux] using hq
  | cons p rest ih =>
    intro pinned general q hq
    by_cases hc : postPinCond u pinned p = true
    · unfold getPinnedPostsAux
      rw [if_pos hc]
      exact ih _ _ q (by simp [hq])
    · unfold getPinnedPostsAux
      rw [if_neg hc]
      exact ih _ _ q hq

theorem getPinnedPostsAux_sound (u : String) :
    ∀ (l pinned general : List ViewPost),
      (∀ p ∈ pinned, ownPin u p = true ∨ (p.doc.pins = none ∧
        ∃ q ∈ pinned, p.doc.parent = some q.path)) →
      (∀ p ∈ general, ownPin u p = false) →
      ((∀ p ∈ (getPinnedPostsAux u l pinned general).1,
          ownPin u p = true ∨ (p.doc.pins = none ∧
            ∃ q ∈ (getPinnedPostsAux u l pinned general).1,
              p.doc.parent = some q.path)) ∧
        (∀ p ∈ (getPinnedPostsAux u l pinned general).2, ownPin u p = false)) := by
  intro l
  induction l with
  | nil =>
    intro pinned general hpin hgen
    constructor
    · intro p hp
      simp only [getPinnedPostsAux] at hp ⊢
      exact hpin p hp
    · intro p hp
      simp only [getPinnedPostsAux] at hp
      exact hgen p hp
  | cons p rest ih =>
    intro pinned general hpin hgen
    by_cases hc : postPinCond u pinned p = true
    · unfold getPinnedPostsAux
      rw [if_pos hc]
      apply ih (pinned ++ [p]) general ?_ hgen
      intro x hx
      rcases List.mem_append.mp hx with hx | hx
      · rcases hpin x hx with h | ⟨hnone, q, hq, hpar⟩
        · exact Or.inl h
        · exact Or.inr ⟨hnone, q, List.mem_append_left _ hq, hpar⟩
      · have hxp : x = p := by simpa using hx
        subst hxp
        cases hp : x.doc.pins with
        | some pins =>
          have hc2 : pinsFindUser pins u = true := by
            unfold postPinCond at hc
            rw [hp] at hc
            simpa using hc
          exact Or.inl (by simp [ownPin, hp, hc2])
        | none =>
          have hc2 : pinned.any (fun s => x.doc.parent = some s.path) = true := by
            unfold postPinCond at hc
            rw [hp] at hc
            simpa using hc
          rcases List.any_eq_true.mp hc2 with ⟨q, hq, hqc⟩
          refine Or.inr ⟨by simp [hp], q, List.mem_append_left _ hq, by simpa using hqc⟩
    · unfold getPinnedPostsAux
      rw [if_neg hc]
      apply ih pinned (general ++ [p]) hpin ?_
      intro x hx
      rcases List.mem_append.mp hx with hx | hx
      · exact hgen x hx
      · have hxp : x = p := by simpa using hx
        subst hxp
        cases hp : x.doc.pins with
        | some pins =>
          have hc2 : pinsFindUser pins u = false := by
            unfold postPinCond at hc
            rw [hp] at hc
            simpa using hc
          simp [ownPin, hp, hc2]
        | none =>
          simp [ownPin, hp]

/-- C1 counterexample: with viewer alice, the top-level post `/p` is pinned
by alice and its direct reply `/q` carries a pins array naming only bob.
The claimed invariant places `/q` in the pinned partition (descendant of a
pinned post, regardless of its own pinnedBy), but `getPinnedPosts` puts `/q`
in the general partition: a present pins array short-circuits the ancestor
cascade. -/
theorem pinnedPartition_counterexample :
    (getPinnedPosts "alice" [exPinParent, exPinChild]).1 = [exPinParent] ∧
      (getPinnedPosts "alice" [exPinParent, exPinChild]).2 = [exPinChild] ∧
      exPinChild.doc.parent = some exPinParent.path := by
  refine ⟨?_, ?_, rfl⟩ <;> rfl

/-- C1 amended: after the partition build every known post is in exactly one
of the two partitions (their concatenation is a permutation of the input),
and membership is characterised by: a post is in `pinned` only if the
viewer's (nonempty) username is in its own pins array, or its pins field is
absent and its direct parent sits in `pinned`; no post in `general` has the
viewer in its own pins array; and every post whose own pins array names the
viewer lands in `pinned`.  The cascade does NOT override a present pins
array that lacks the viewer. -/
theorem pinnedPartition_characterization (u : String) (posts : List ViewPost) :
    (((getPinnedPosts u posts).1 ++ (getPinnedPosts u posts).2).Perm posts) ∧
      (∀ p ∈ (getPinnedPosts u posts).1,
        ownPin u p = true ∨ (p.doc.pins = none ∧
          ∃ q ∈ (getPinnedPosts u posts).1, p.doc.parent = some q.path)) ∧
      (∀ p ∈ (getPinnedPosts u posts).2, ownPin u p = false) ∧
      (∀ p ∈ posts, ownPin u p = true → p ∈ (getPinnedPosts u posts).1) := by
  have hdef : getPinnedPosts u posts =
      getPinnedPostsAux u (List.insertionSort byCreatedAt posts) [] [] := rfl
  have hsort : (List.insertionSort byCreatedAt posts).Perm posts :=
    List.perm_insertionSort _ _
  have hperm0 := getPinnedPostsAux_perm u (List.insertionSort byCreatedAt posts) [] []
  simp only [List.nil_append] at hperm0
  have hperm : ((getPinnedPosts u posts).1 ++ (getPinnedPosts u posts).2).Perm posts := by
    rw [hdef]
    exact hperm0.trans hsort
  have hsound := getPinnedPostsAux_sound u (List.insertionSort byCreatedAt posts) [] []
    (by simp) (by simp)
  refine ⟨hperm, ?_, ?_, ?_⟩
  · rw [hdef]
    exact hsound.1
  · rw [hdef]
    exact hsound.2
  · intro p hp hown
    have hmem : p ∈ (getPinnedPosts u posts).1 ++ (getPinnedPosts u posts).2 :=
      hperm.mem_iff.mpr hp
    rcases List.mem_append.mp hmem with hm | hm
    · exact hm
    · have := hsound.2 p (by rw [hdef] at hm; exact hm)
      rw [this] at hown
      cases hown

/-- C1 amended witness: alice's pinned post is in the pinned partition and
the two partitions together carry both posts exactly once. -/
theorem pinnedPartition_characterization_witness :
    exPinParent ∈ (getPinnedPosts "alice" [exPinParent, exPinChild]).1 ∧
      (((getPinnedPosts "alice" [exPinParent, exPinChild]).1 ++
        (getPinnedPosts "alice" [exPinParent, exPinChild]).2).Perm
        [exPinParent, exPinChild]) := by
  have h := pinnedPartition_characterization "alice" [exPinParent, exPinChild]
  exact ⟨h.2.2.2 exPinParent (by decide) (by decide), h.1⟩

/-! ## C5: ordering law -/

theorem jsFindIndexAux_false :
    ∀ (l : List PItem) (i : Int), jsFindIndexAux (fun _ => false) l i = -1 := by
  intro l
  induction l with
  | nil => intro i; rfl
  | cons x rest ih =>
    intro i
    simpa [jsFindIndexAux] using ih (i + 1)

/-- The local branch's root insertion always appends: the `findIndex`
callback never returns a value, so the computed insertion point is `-1` and
`insertBefore(newPost, null)` places the new root at the end. -/
theorem localRootInsert_append (area : List PItem) (p : PItem) :
    localRootInsert area p = area ++ [p] := by
  simp [localRootInsert, jsFindIndex, jsFindIndexAux_false, insertBeforePath]

/-- C5 counterexample: two root creations with distinct `createdAt`
(`/a` at 100, `/b` at 200).  `/b`'s stream delivery arrives first and is
appended; `/a`'s local creation resolves afterwards and — the local branch's
`findIndex` callback having no `return` — is also appended.  The resulting
general root sequence carries post times 200 then 100, decreasing in
`createdAt`: the ordering law does not survive mutation. -/
theorem rootOrdering_mutation_counterexample :
    localRootInsert (streamRootAppend [] (postFromUpdate exRootBPost []))
        (postFromUpdate exRootAPost []) =
      [postFromUpdate exRootBPost [], postFromUpdate exRootAPost []] ∧
    (postFromUpdate exRootBPost []).postTime = exRootBPost.meta.createdAt ∧
    (postFromUpdate exRootAPost []).postTime = exRootAPost.meta.createdAt ∧
    exRootBPost.meta.createdAt = 200 ∧ exRootAPost.meta.createdAt = 100 ∧
    ¬ List.Pairwise byPostTime
      [postFromUpdate exRootBPost [], postFromUpdate exRootAPost []] := by
  refine ⟨rfl, rfl, rfl, rfl, rfl, ?_⟩
  intro h
  have hrel := (List.pairwise_cons.mp h).1 (postFromUpdate exRootAPost [])
    (by simp)
  simp [byPostTime, postFromUpdate, PItem.postTime, exRootBPost, exRootAPost] at hrel

/-- C5 amended: after the index is (re)built by `displayAllPosts`, the
root-level sequence of the general partition is non-decreasing in
`createdAt` and that of the pinned partition in `lastModifiedAt` (for every
input).  Mutation does not re-establish the law: both root-insertion
branches of `updatePosts` append the new root at the end of the display
area regardless of its `createdAt` (the local branch's `findIndex` callback
never returns, so it always yields `-1`), hence the general root order is
preserved across insertions only when the appended root's post time
dominates the area's. -/
theorem rootOrdering_amended (u : String) (posts : List ViewPost)
    (area : List PItem) (p : PItem) :
    (List.Pairwise byCreatedAt (rootsOf (displayAllPosts u posts).generalList) ∧
      List.Pairwise byLastModifiedAt (rootsOf (displayAllPosts u posts).pinnedList)) ∧
    streamRootAppend area p = area ++ [p] ∧
    localRootInsert area p = area ++ [p] ∧
    (List.Pairwise byPostTime area → (∀ x ∈ area, x.postTime ≤ p.postTime) →
      List.Pairwise byPostTime (area ++ [p])) := by
  refine ⟨⟨?_, ?_⟩, rfl, localRootInsert_append area p, fun hs hb => ?_⟩
  · have hs2 : List.Pairwise byCreatedAt
        (List.insertionSort byCreatedAt (getPinnedPosts u posts).2) :=
      List.sorted_insertionSort byCreatedAt _
    exact List.Pairwise.filter _ hs2
  · have hs2 : List.Pairwise byLastModifiedAt
        (List.insertionSort byLastModifiedAt (getPinnedPosts u posts).1) :=
      List.sorted_insertionSort byLastModifiedAt _
    exact List.Pairwise.filter _ hs2
  · rw [List.pairwise_append]
    refine ⟨hs, List.pairwise_singleton _ _, fun a ha b hb2 => ?_⟩
    have hbp : b = p := by simpa using hb2
    subst hbp
    exact hb a ha

/-- C5 amended witness: appending the later-created `/b` after `/a` keeps
the root sequence sorted. -/
theorem rootOrdering_amended_witness :
    List.Pairwise byPostTime [postFromUpdate exRootAPost []] ∧
      List.Pairwise byPostTime
        ([postFromUpdate exRootAPost []] ++ [postFromUpdate exRootBPost []]) := by
  have hsingle : List.Pairwise byPostTime [postFromUpdate exRootAPost []] :=
    List.pairwise_singleton _ _
  refine ⟨hsingle, ?_⟩
  exact (rootOrdering_amended "alice" [] [postFromUpdate exRootAPost []]
      (postFromUpdate exRootBPost [])).2.2.2 hsingle
    (fun x hx => by
      have hxa : x = postFromUpdate exRootAPost [] := by simpa using hx
      subst hxa
      simp [postFromUpdate, PItem.postTime, exRootAPost, exRootBPost])

end M3
